import Mathlib

/-!
Verification of the inPA search-notification bot core
(query expansion, aggregation, seen-state tracking, sqlite state store,
poll cycle), shallowly embedded from the Python sources
`app/bot/poll.py`, `app/bot/state_sqlite.py`, `app/bot/state.py`,
`app/bot/handlers.py`, `app/bot/inpa.py`.
-/

namespace Inpa

/-- A filter value, the Python dict with id and name used for
categories, regions and sectors. -/
structure Filt where
  id : String
  name : String
deriving DecidableEq, Repr

/-- Request body built by `inpa.build_payload`.  The Python dict also
carries two constant fields (status equal to the OPEN singleton and a
null provinciaCodice) that no code in the repository reads back, so they
are omitted here. -/
structure Payload where
  text : String
  categoriaId : String
  regioneId : Option String
  settoreId : Option String
deriving DecidableEq, Repr

/-- `inpa.build_payload`. -/
def build_payload (text : String) (categoria_id : String)
    (regione_id : Option String) (settore_id : Option String) : Payload :=
  ⟨text, categoria_id, regione_id, settore_id⟩

/-- One catalog entry.  The merge key is the optional `id`; `none`
models a Python item whose id key is absent or holds None, while
`some ""` models an empty-string id (both are falsy in Python).
`dataPubblicazione` is the raw timestamp string used only for ordering;
`body` stands for the remaining opaque display fields. -/
structure Item where
  id : Option String
  dataPubblicazione : Option String
  body : Nat
deriving DecidableEq, Repr

/-- Python truthiness of the optional id string: None and the empty
string are falsy. -/
def truthyId : Option String → Bool
  | none => false
  | some s => s ≠ ""

/-- One search configuration dict.  `categorie`, `regioni`, `settori`
are the multi-select lists; `categoria` is the legacy single-category
field older search dicts carry (absent is `none`); `id` and `label` are
optional keys. -/
structure SearchCfg where
  id : Option String
  text : String
  label : Option String
  categorie : List Filt
  categoria : Option Filt
  regioni : List Filt
  settori : List Filt
deriving DecidableEq, Repr

/-- `poll._iter_payloads`: the category list (falling back to the
legacy single `categoria` when the list is empty, dropping a None
fallback), with empty region and sector lists replaced by the
singleton no-filter value, combined as a cartesian product in
category, region, sector nesting order. -/
def iter_payloads (s : SearchCfg) : List Payload :=
  let cats : List Filt :=
    if s.categorie.isEmpty then
      (match s.categoria with | some c => [c] | none => [])
    else s.categorie
  let regs_iter : List (Option Filt) :=
    if s.regioni.isEmpty then [none] else s.regioni.map some
  let sets_iter : List (Option Filt) :=
    if s.settori.isEmpty then [none] else s.settori.map some
  cats.flatMap fun cat =>
    regs_iter.flatMap fun reg =>
      sets_iter.map fun sett =>
        build_payload s.text cat.id (reg.map Filt.id) (sett.map Filt.id)

/-- `handlers._build_payloads_from_search`: same cartesian product, but
the empty category list is replaced by a singleton None that is skipped
inside the loop, so no legacy fallback applies. -/
def build_payloads_from_search (s : SearchCfg) : List Payload :=
  let cats_iter : List (Option Filt) :=
    if s.categorie.isEmpty then [none] else s.categorie.map some
  let regs_iter : List (Option Filt) :=
    if s.regioni.isEmpty then [none] else s.regioni.map some
  let sets_iter : List (Option Filt) :=
    if s.settori.isEmpty then [none] else s.settori.map some
  cats_iter.flatMap fun cat =>
    regs_iter.flatMap fun reg =>
      sets_iter.flatMap fun sett =>
        match cat with
        | some c => [build_payload s.text c.id (reg.map Filt.id) (sett.map Filt.id)]
        | none => []

/-- One catalog call result: the content list of a successful response,
or an error for a raised request exception (`poll` catches every
exception from `inpa.search` and counts it). -/
abbrev Resp := Except Unit (List Item)

/-- A catalog client: one call per payload. -/
abbrev Catalog := Payload → Resp

/-- One step of the merge loop in `Poll._process_one_search`: an item
is appended only when its id is truthy and not yet in the merge-id set.
The state is the merged list together with the list standing for the
`merge_ids` set. -/
def stepItem (st : List Item × List String) (it : Item) : List Item × List String :=
  match it.id with
  | some iid =>
      if iid ≠ "" && !st.2.contains iid then (st.1 ++ [it], st.2 ++ [iid]) else st
  | none => st

/-- One response of the per-payload loop: an exception increments the
error counter and contributes nothing; a successful response feeds its
content through the merge loop. -/
def mergeStep (st : (List Item × List String) × Nat) (r : Resp) :
    (List Item × List String) × Nat :=
  match r with
  | .error _ => (st.1, st.2 + 1)
  | .ok content => (content.foldl stepItem st.1, st.2)

/-- The whole aggregation loop of `Poll._process_one_search` over the
sequence of per-payload responses. -/
def mergeResponses (rs : List Resp) : (List Item × List String) × Nat :=
  rs.foldl mergeStep (([], []), 0)

/-- Content of the successful responses, flattened in call order. -/
def flatOk (rs : List Resp) : List Item :=
  (rs.filterMap fun r => match r with | .ok c => some c | .error _ => none).flatten

/-- Number of failed responses. -/
def countErr (rs : List Resp) : Nat :=
  rs.countP fun r => match r with | .ok _ => false | .error _ => true

/-- Reference dedup following the specification wording: keep, for each
truthy id, the first item carrying it in iteration order, skipping ids
already in `seen`. -/
def dedupEx (seen : List String) : List Item → List Item
  | [] => []
  | it :: rest =>
    match it.id with
    | some i =>
        if i ≠ "" && !seen.contains i then it :: dedupEx (seen ++ [i]) rest
        else dedupEx seen rest
    | none => dedupEx seen rest

/-- The sort key of the aggregation step: the raw `dataPubblicazione`
string, the empty string when absent. -/
def pubKey (it : Item) : String := it.dataPubblicazione.getD ""

/-- Stable descending insertion by `pubKey`: the inserted element goes
after every element whose key is greater than or equal to its own. -/
def insertByKeyDesc (x : Item) : List Item → List Item
  | [] => [x]
  | y :: ys => if pubKey x ≤ pubKey y then y :: insertByKeyDesc x ys else x :: y :: ys

/-- The sort `merged.sort(key=..., reverse=True)` of the aggregation
step: a stable sort, descending on `pubKey`.  A stable sort under a
total preorder has a unique result, so stable insertion sort computes
exactly the list the Python sort produces. -/
def sortDesc (l : List Item) : List Item :=
  l.foldl (fun acc x => insertByKeyDesc x acc) []

/-- Membership of an optional item id in a seen set of id strings
(a Python `x not in s` test on `it.get("id")`: an absent id is never a
member). -/
def seenMem (seen : List String) : Option String → Bool
  | some i => seen.contains i
  | none => false

/-- The diff of `Poll._process_one_search`: keep the merged items whose
id is not in the seen set. -/
def diffSeen (seen : List String) (items : List Item) : List Item :=
  items.filter fun it => !(seenMem seen it.id)

/-- Order-preserving dedup, the Python `list(dict.fromkeys(l))`, with
an accumulator of already kept elements. -/
def dedupFirstAux (seen : List String) : List String → List String
  | [] => []
  | x :: xs =>
      if seen.contains x then dedupFirstAux seen xs
      else x :: dedupFirstAux (seen ++ [x]) xs

/-- `list(dict.fromkeys(l))`: keep the first occurrence of each id. -/
def dedupFirst (l : List String) : List String := dedupFirstAux [] l

/-- The in-memory seen-set commit of `Poll._process_one_search`:
`list(dict.fromkeys(prev + ids))`. -/
def commitSeen (prev ids : List String) : List String := dedupFirst (prev ++ ids)

/-- Ids of a list of items, absent ids skipped. -/
def idsOf (l : List Item) : List String := l.filterMap Item.id

/-- Whether a catalog response succeeded. -/
def isOkResp : Resp → Bool
  | .ok _ => true
  | .error _ => false

/-- Sample search used to witness `expander_count` on concrete data. -/
def sampleSearch : SearchCfg :=
  ⟨none, "t", none, [⟨"c1", "C"⟩, ⟨"c2", "D"⟩], none, [⟨"r1", "R"⟩], []⟩

/-- A user dict as handled by `poll.run_once` and `State.set_user`:
the multi-search list, the legacy single search, the per-search seen
map and the legacy flat seen list.  A missing key is the empty list or
`none`; every call site in the repository builds these dicts through
`State.get_user`, which always populates all four keys. -/
structure UserU where
  searches : List SearchCfg
  search : Option SearchCfg
  seen_ids_map : List (String × List String)
  seen_ids : List String
deriving DecidableEq, Repr

/-- Filter dimension tag of a `search_filters` row. -/
inductive FKind where
  | category
  | region
  | sector
deriving DecidableEq, Repr

/-- A row of the `searches` table. -/
structure SearchRow where
  id : String
  chat_id : String
  text : String
  label : Option String
deriving DecidableEq, Repr

/-- A row of the `search_filters` table (the autoincrement id is
irrelevant and omitted; list position stands for rowid order). -/
structure FilterRow where
  search_id : String
  kind : FKind
  value_id : String
  value_name : String
deriving DecidableEq, Repr

/-- The sqlite database of `state_sqlite.SCHEMA`: tables `users`,
`searches`, `search_filters`, `seen_items`, `legacy_seen`.  Lists keep
insertion order; primary keys are enforced by the insert operations. -/
structure DB where
  users : List String
  searches : List SearchRow
  search_filters : List FilterRow
  seen_items : List (String × String)
  legacy_seen : List (String × String)
deriving DecidableEq, Repr

/-- One SQL statement issued by the store.  The connection is opened
with isolation_level None, i.e. autocommit: each statement is committed
and durable on its own, and there is no BEGIN or COMMIT anywhere in the
store, so every intermediate state of a statement sequence is a visible
persisted state.  `pyKeyError` stands for the KeyError a Python dict
subscript raises before a statement is even issued. -/
inductive StOp where
  | ensureUser (chat : String)
  | upsertSearch (sid chat text : String) (label : Option String)
  | deleteFilters (sid : String)
  | insertFilter (sid : String) (kind : FKind) (vid vname : String)
  | deleteSearchCascade (sid : String)
  | insertSeenIgnore (sid iid : String)
  | insertLegacySeenIgnore (chat iid : String)
  | pyKeyError
deriving DecidableEq, Repr

/-- Whether a search row with this id exists. -/
def hasSearch (db : DB) (sid : String) : Bool :=
  db.searches.any fun r => r.id == sid

/-- Effect of DELETE FROM searches WHERE id equals sid with the ON
DELETE CASCADE clauses of `search_filters` and `seen_items`. -/
def delCascade (db : DB) (sid : String) : DB :=
  { db with
    searches := db.searches.filter fun r => r.id ≠ sid,
    search_filters := db.search_filters.filter fun f => f.search_id ≠ sid,
    seen_items := db.seen_items.filter fun p => p.1 ≠ sid }

/-- Semantics of one statement, with the schema constraints of
`state_sqlite.SCHEMA` under PRAGMA foreign_keys ON: inserts into
`search_filters` and `seen_items` require the referenced search (an OR
IGNORE clause does not cover foreign-key violations, which raise), the
primary keys of `seen_items` and `legacy_seen` make re-insertion a
no-op via OR IGNORE, and deleting a search cascades to its filter and
seen rows. -/
def applyOp (db : DB) : StOp → Except Unit DB
  | .ensureUser c =>
      .ok { db with users := if db.users.contains c then db.users else db.users ++ [c] }
  | .upsertSearch sid c t lb =>
      if hasSearch db sid then
        .ok { db with searches := db.searches.map fun r =>
          if r.id == sid then { r with text := t, label := lb } else r }
      else if db.users.contains c then
        .ok { db with searches := db.searches ++ [⟨sid, c, t, lb⟩] }
      else .error ()
  | .deleteFilters sid =>
      .ok { db with search_filters := db.search_filters.filter fun f => f.search_id ≠ sid }
  | .insertFilter sid k vid vn =>
      if hasSearch db sid then
        .ok { db with search_filters := db.search_filters ++ [⟨sid, k, vid, vn⟩] }
      else .error ()
  | .deleteSearchCascade sid => .ok (delCascade db sid)
  | .insertSeenIgnore sid iid =>
      if hasSearch db sid then
        .ok { db with seen_items :=
          if db.seen_items.contains (sid, iid) then db.seen_items
          else db.seen_items ++ [(sid, iid)] }
      else .error ()
  | .insertLegacySeenIgnore c iid =>
      if db.users.contains c then
        .ok { db with legacy_seen :=
          if db.legacy_seen.contains (c, iid) then db.legacy_seen
          else db.legacy_seen ++ [(c, iid)] }
      else .error ()
  | .pyKeyError => .error ()

/-- Run a statement sequence in autocommit mode: stop at the first
raising statement; the state reached so far stays committed and the
flag records whether the whole sequence succeeded. -/
def runOps : DB → List StOp → DB × Bool
  | db, [] => (db, true)
  | db, op :: rest =>
    match applyOp db op with
    | .ok db' => runOps db' rest
    | .error _ => (db, false)

/-- Filter-row inserts for one dimension of one search. -/
def filterOps (sid : String) (k : FKind) (fs : List Filt) : List StOp :=
  fs.map fun f => StOp.insertFilter sid k f.id f.name

/-- Statements for one incoming search in `State.set_user`: upsert the
scalar row, delete all its filter rows, re-insert the three filter
dimensions.  A search dict without an id raises KeyError. -/
def searchOps (chat : String) (s : SearchCfg) : List StOp :=
  match s.id with
  | none => [StOp.pyKeyError]
  | some sid =>
    StOp.upsertSearch sid chat s.text s.label :: StOp.deleteFilters sid ::
      (filterOps sid FKind.category s.categorie
        ++ filterOps sid FKind.region s.regioni
        ++ filterOps sid FKind.sector s.settori)

/-- The statement sequence of `State.set_user`: ensure the user row,
upsert every incoming search with wholesale filter replacement, delete
the stored searches missing from the incoming list (the Python set
difference is iterated here in stored order; the cascade deletes
commute, so the final state does not depend on that order), insert the
seen map entries with OR IGNORE, insert the legacy seen ids with OR
IGNORE.  `existing` is read from the initial state, as the SELECT runs
first. -/
def set_userOps (db : DB) (chat : String) (u : UserU) : List StOp :=
  let existing := (db.searches.filter fun r => r.chat_id == chat).map SearchRow.id
  let incoming := u.searches.filterMap SearchCfg.id
  StOp.ensureUser chat ::
    (u.searches.flatMap (searchOps chat)
      ++ (existing.filter fun x => !incoming.contains x).map StOp.deleteSearchCascade
      ++ (u.seen_ids_map.flatMap fun kv => kv.2.map (StOp.insertSeenIgnore kv.1))
      ++ u.seen_ids.map (StOp.insertLegacySeenIgnore chat))

/-- `State.set_user` of the sqlite store, run in autocommit mode. -/
def set_user (db : DB) (chat : String) (u : UserU) : DB × Bool :=
  runOps db (set_userOps db chat u)

/-- `State.append_seen`: idempotent append of ids to the per-search
seen table when a truthy search id is given, to the legacy per-user
table otherwise. -/
def append_seen (db : DB) (chat : String) (ids : List String)
    (search_id : Option String) : DB × Bool :=
  if ids.isEmpty then (db, true)
  else
    runOps db (StOp.ensureUser chat ::
      match search_id with
      | some sid =>
        if sid ≠ "" then ids.map (StOp.insertSeenIgnore sid)
        else ids.map (StOp.insertLegacySeenIgnore chat)
      | none => ids.map (StOp.insertLegacySeenIgnore chat))

/-- No stored row references the given search id. -/
def noRef (db : DB) (sid : String) : Prop :=
  (∀ r ∈ db.searches, r.id ≠ sid)
    ∧ (∀ f ∈ db.search_filters, f.search_id ≠ sid)
    ∧ (∀ p ∈ db.seen_items, p.1 ≠ sid)

/-- Concrete store for the idempotence witness: one user with one
stored search. -/
def dbSample : DB :=
  ⟨["c"], [⟨"s1", "c", "t", some "L"⟩], [⟨"s1", FKind.category, "c1", "C"⟩], [], []⟩

/-- Store for the cascade witness: two stored searches with filter and
seen rows each. -/
def dbTwoSearches : DB :=
  ⟨["c"],
   [⟨"s1", "c", "t", some "L"⟩, ⟨"s2", "c", "u", none⟩],
   [⟨"s1", FKind.category, "c1", "C"⟩, ⟨"s2", FKind.category, "c2", "D"⟩],
   [("s1", "A"), ("s2", "B")], []⟩

/-- Incoming user dict for the cascade witness: keeps s2 only. -/
def uKeepS2 : UserU :=
  ⟨[⟨some "s2", "u", none, [⟨"c2", "D"⟩], some ⟨"c2", "D"⟩, [], []⟩],
   none, [("s2", ["B"])], []⟩

/-- `poll._label` composed label: text, category names (falling back to
the legacy single category name or a placeholder), region and sector
names when present, joined and truncated to at most 65 characters. -/
def labelCompute (cfg : SearchCfg) : String :=
  let catJoin := String.intercalate ", " (cfg.categorie.map Filt.name)
  let cat := if catJoin = "" then
      (match cfg.categoria with | some c => c.name | none => "categoria?")
    else catJoin
  let reg := String.intercalate ", " (cfg.regioni.map Filt.name)
  let setr := String.intercalate ", " (cfg.settori.map Filt.name)
  let parts := [cfg.text, cat]
  let parts := if reg ≠ "" then parts ++ [reg] else parts
  let parts := if setr ≠ "" then parts ++ [setr] else parts
  let s := String.intercalate " · " (parts.filter fun p => p ≠ "")
  if s.length > 65 then s.take 64 ++ "…" else s

/-- `poll._label`: the stored label when present and non-empty, else
the computed one. -/
def label (cfg : SearchCfg) : String :=
  match cfg.label with
  | some l => if l ≠ "" then l else labelCompute cfg
  | none => labelCompute cfg

/-- A message handed to the notification sink.  The rendered text is
the header concatenated with `notifier.summarize_item` of the item, a
pure rendering the core never reads back, so the item is carried as
is. -/
inductive Notif where
  | item (chat : String) (header : String) (it : Item)
  | errNote (chat : String) (slabel : String) (errors : Nat)
deriving DecidableEq, Repr

/-- First-match lookup in an assoc list (a Python dict get). -/
def lookupAssoc : List (String × List String) → String → Option (List String)
  | [], _ => none
  | (k, v) :: rest, key => if k = key then some v else lookupAssoc rest key

/-- Key assignment in an assoc list (a Python dict set: an existing key
keeps its position, a new key goes last). -/
def upsertAssoc : List (String × List String) → String → List String
    → List (String × List String)
  | [], key, v => [(key, v)]
  | (k, w) :: rest, key, v =>
    if k = key then (key, v) :: rest else (k, w) :: upsertAssoc rest key v

/-- The per-search seen id used by `run_once`: the stored id when
truthy, else the label. -/
def sidOf (s : SearchCfg) : String :=
  match s.id with
  | some i => if i = "" then label s else i
  | none => label s

/-- `Poll._process_one_search`: expand the search, aggregate the
responses, notify a failure note when every call failed, sort, diff
against the per-search or legacy seen set, notify the new items and
commit them into the user dict; the flag reports whether the dict
changed. -/
def processOneSearch (cat : Catalog) (chat : String) (u : UserU)
    (cfg : SearchCfg) (lid : String) : UserU × List Notif × Bool :=
  let payloads := iter_payloads cfg
  if payloads.isEmpty then (u, [], false)
  else
    let res := mergeResponses (payloads.map cat)
    let merged0 := res.1.1
    let mids := res.1.2
    let errors := res.2
    if merged0.isEmpty then
      if errors ≠ 0 && mids.isEmpty then
        (u, [Notif.errNote chat (label cfg) errors], false)
      else (u, [], false)
    else
      let merged := sortDesc merged0
      let multiMode := !u.searches.isEmpty
      let seenForThis :=
        if multiMode then (lookupAssoc u.seen_ids_map lid).getD [] else u.seen_ids
      let newItems := diffSeen seenForThis merged
      if newItems.isEmpty then (u, [], false)
      else
        let hdr := if multiMode then "🆕 <b>" ++ label cfg ++ "</b>\n\n"
          else "🆕 Nuovo bando INPA:\n\n"
        let notifs := newItems.map fun it => Notif.item chat hdr it
        let ids := newItems.filterMap Item.id
        if multiMode then
          let prev := (lookupAssoc u.seen_ids_map lid).getD []
          ({ u with seen_ids_map := upsertAssoc u.seen_ids_map lid (commitSeen prev ids) },
            notifs, true)
        else
          ({ u with seen_ids := commitSeen u.seen_ids ids }, notifs, true)

/-- The per-user body of `Poll.run_once`: with saved searches, process
each in turn threading the mutated user dict and or-ing the changed
flags; with none, process the legacy single search once, discarding its
changed flag, exactly as the legacy branch ignores the return value and
continues without persisting. -/
def processUser (cat : Catalog) (chat : String) (u : UserU) :
    UserU × List Notif × Bool :=
  if u.searches.isEmpty then
    match u.search with
    | some legacy =>
      let r := processOneSearch cat chat u legacy "__legacy__"
      (r.1, r.2.1, false)
    | none => (u, [], false)
  else
    u.searches.foldl
      (fun acc s =>
        let r := processOneSearch cat chat acc.1 s (sidOf s)
        (r.1, acc.2.1 ++ r.2.1, acc.2.2 || r.2.2))
      (u, [], false)

/-- `Poll.run_once` over the snapshot of users, generic in the state
store: `setU` is the store's set_user, which may raise (the sqlite
layer can raise OperationalError on any call, for instance on lock
contention past its timeout).  The loop body has no exception handler,
so a raised set_user aborts the loop: the remaining users are not
processed and the notifications already sent stay sent.  The returned
flag records whether the cycle was aborted. -/
def runOnceAux (cat : Catalog) {σ : Type}
    (setU : σ → String → UserU → Except Unit σ) :
    List (String × UserU) → σ → σ × List Notif × Bool
  | [], st => (st, [], false)
  | (chat, u) :: rest, st =>
    let r := processUser cat chat u
    if r.2.2 then
      match setU st chat r.1 with
      | .error _ => (st, r.2.1, true)
      | .ok st' =>
        let k := runOnceAux cat setU rest st'
        (k.1, r.2.1 ++ k.2.1, k.2.2)
    else
      let k := runOnceAux cat setU rest st
      (k.1, r.2.1 ++ k.2.1, k.2.2)

/-- Key assignment for the JSON store users mapping. -/
def setAssoc : List (String × UserU) → String → UserU → List (String × UserU)
  | [], key, v => [(key, v)]
  | (k, w) :: rest, key, v =>
    if k = key then (key, v) :: rest else (k, w) :: setAssoc rest key v

/-- `state.State.set_user` of the JSON store: replace the whole user
node; never raises. -/
def jsonSetUser (m : List (String × UserU)) (chat : String) (u : UserU) :
    Except Unit (List (String × UserU)) := .ok (setAssoc m chat u)

/-- One poll cycle against the JSON store, whose `all_users` returns
the users mapping itself, re-read from disk on every cycle. -/
def runOnceJson (cat : Catalog) (m : List (String × UserU)) :
    List (String × UserU) × List Notif × Bool :=
  runOnceAux cat jsonSetUser m m

/-- Chat id of a notification. -/
def notifChat : Notif → String
  | .item c _ _ => c
  | .errNote c _ _ => c

/-- The notified item, when the notification is an item message. -/
def notifItem : Notif → Option Item
  | .item _ _ it => some it
  | .errNote _ _ _ => none

/-- The message header, when the notification is an item message. -/
def notifHeader : Notif → Option String
  | .item _ h _ => some h
  | .errNote _ _ _ => none

/-- Truthiness of the id carried by an item notification. -/
def notifTruthy : Notif → Prop
  | .item _ _ it => truthyId it.id = true
  | .errNote _ _ _ => True

def itemA : Item := ⟨some "A", some "2024-01-02", 0⟩

def catA : Catalog := fun _ => .ok [itemA]

def cfgM1 : SearchCfg :=
  ⟨some "s1", "t", some "L", [⟨"c1", "C"⟩], some ⟨"c1", "C"⟩, [], []⟩

def cfgM2 : SearchCfg :=
  ⟨some "s2", "t", some "L", [⟨"c1", "C"⟩], some ⟨"c1", "C"⟩, [], []⟩

def userM1 : UserU := ⟨[cfgM1], none, [("s1", [])], []⟩

def userM2 : UserU := ⟨[cfgM2], none, [("s2", [])], []⟩

def usersC3 : List (String × UserU) := [("u1", userM1), ("u2", userM2)]

def failSetUser (m : List (String × UserU)) (chat : String) (u : UserU) :
    Except Unit (List (String × UserU)) :=
  if chat = "u1" then .error () else .ok (setAssoc m chat u)

def cfgLegacy : SearchCfg := ⟨none, "t", none, [], some ⟨"c1", "C"⟩, [], []⟩

def userLegacy : UserU := ⟨[], some cfgLegacy, [], []⟩

def usersL : List (String × UserU) := [("L", userLegacy)]

def usersM : List (String × UserU) := [("M", userM1)]

def uC2 : UserU :=
  ⟨[⟨some "s1", "t", some "L", [⟨"c1", "C"⟩], some ⟨"c1", "C"⟩, [], []⟩], none, [], []⟩

theorem length_bind_const {α β : Type} (l : List α) (f : α → List β) (n : Nat)
    (h : ∀ a ∈ l, (f a).length = n) : (l.flatMap f).length = l.length * n := by
  induction l with
  | nil => simp
  | cons a t ih =>
    simp only [List.flatMap_cons, List.length_append, List.length_cons]
    rw [h a (by simp), ih (fun x hx => h x (by simp [hx]))]
    ring

theorem length_iter_regs (l : List Filt) :
    (if l.isEmpty then ([none] : List (Option Filt)) else l.map some).length
      = max l.length 1 := by
  cases l with
  | nil => simp
  | cons a t => simp

theorem flatMap_const_nil {α β : Type} (l : List α) :
    (l.flatMap fun _ => ([] : List β)) = [] := by
  induction l <;> simp [*]

/-- C4: for a SavedSearch (no legacy single-category field) with k
categories, r regions and s sectors, both expanders produce exactly
k * max(r,1) * max(s,1) payloads; in particular k = 0 yields the empty
sequence. -/
theorem expander_count (s : SearchCfg) (hleg : s.categoria = none) :
    (iter_payloads s).length
      = s.categorie.length * max s.regioni.length 1 * max s.settori.length 1
    ∧ (build_payloads_from_search s).length
      = s.categorie.length * max s.regioni.length 1 * max s.settori.length 1 := by
  have hr := length_iter_regs s.regioni
  have hs := length_iter_regs s.settori
  constructor
  · show (iter_payloads s).length = _
    rw [iter_payloads]
    cases hc : s.categorie with
    | nil => simp [hleg]
    | cons a t =>
      simp only [hc, List.isEmpty_cons, if_neg Bool.false_ne_true]
      rw [length_bind_const _ _ (max s.regioni.length 1 * max s.settori.length 1)]
      · rw [← hc]; ring
      · intro x _
        rw [length_bind_const _ _ (max s.settori.length 1)]
        · rw [hr]
        · intro y _
          rw [List.length_map]
          exact hs
  · show (build_payloads_from_search s).length = _
    rw [build_payloads_from_search]
    cases hc : s.categorie with
    | nil => simp [flatMap_const_nil]
    | cons a t =>
      simp only [hc, List.isEmpty_cons, if_neg Bool.false_ne_true]
      rw [length_bind_const _ _ (max s.regioni.length 1 * max s.settori.length 1)]
      · rw [List.length_map, ← hc]; ring
      · intro x hx
        obtain ⟨c, _, rfl⟩ := List.mem_map.mp hx
        rw [length_bind_const _ _ (max s.settori.length 1)]
        · rw [hr]
        · intro y _
          rw [length_bind_const _ _ 1]
          · rw [hs]; ring
          · intro z _; rfl

theorem foldl_stepItem_eq (l : List Item) :
    ∀ (m : List Item) (s : List String),
      l.foldl stepItem (m, s) = (m ++ dedupEx s l, s ++ idsOf (dedupEx s l)) := by
  induction l with
  | nil => intro m s; simp [dedupEx, idsOf]
  | cons it rest ih =>
    intro m s
    rw [List.foldl_cons]
    cases hid : it.id with
    | none => simp [stepItem, hid, dedupEx, ih m s]
    | some i =>
      by_cases hc : (i ≠ "" && !s.contains i) = true
      · have hstep : stepItem (m, s) it = (m ++ [it], s ++ [i]) := by
          simp only [stepItem, hid]
          rw [if_pos hc]
        have hdd : dedupEx s (it :: rest) = it :: dedupEx (s ++ [i]) rest := by
          simp only [dedupEx, hid]
          rw [if_pos hc]
        rw [hstep, ih, hdd]
        simp [idsOf, List.filterMap_cons, hid, List.append_assoc]
      · have hstep : stepItem (m, s) it = (m, s) := by
          simp only [stepItem, hid]
          rw [if_neg hc]
        have hdd : dedupEx s (it :: rest) = dedupEx s rest := by
          simp only [dedupEx, hid]
          rw [if_neg hc]
        rw [hstep, ih, hdd]

theorem dedupEx_append (l₁ l₂ : List Item) :
    ∀ s, dedupEx s (l₁ ++ l₂)
      = dedupEx s l₁ ++ dedupEx (s ++ idsOf (dedupEx s l₁)) l₂ := by
  induction l₁ with
  | nil => intro s; simp [dedupEx, idsOf]
  | cons it t ih =>
    intro s
    cases hid : it.id with
    | none => simp [dedupEx, hid, ih]
    | some i =>
      have hcons : (it :: t) ++ l₂ = it :: (t ++ l₂) := List.cons_append it t l₂
      by_cases hc : (i ≠ "" && !s.contains i) = true
      · have h1 : dedupEx s (it :: (t ++ l₂)) = it :: dedupEx (s ++ [i]) (t ++ l₂) := by
          simp only [dedupEx, hid]
          rw [if_pos hc]
        have h2 : dedupEx s (it :: t) = it :: dedupEx (s ++ [i]) t := by
          simp only [dedupEx, hid]
          rw [if_pos hc]
        rw [hcons, h1, h2, ih (s ++ [i])]
        simp [idsOf, List.filterMap_cons, hid, List.append_assoc]
      · have h1 : dedupEx s (it :: (t ++ l₂)) = dedupEx s (t ++ l₂) := by
          simp only [dedupEx, hid]
          rw [if_neg hc]
        have h2 : dedupEx s (it :: t) = dedupEx s t := by
          simp only [dedupEx, hid]
          rw [if_neg hc]
        rw [hcons, h1, h2, ih]

theorem mergeResponses_aux (rs : List Resp) :
    ∀ (m : List Item) (s : List String) (e : Nat),
      rs.foldl mergeStep ((m, s), e)
        = ((m ++ dedupEx s (flatOk rs), s ++ idsOf (dedupEx s (flatOk rs))),
           e + countErr rs) := by
  induction rs with
  | nil => intro m s e; simp [flatOk, dedupEx, idsOf, countErr]
  | cons r rest ih =>
    intro m s e
    cases r with
    | error u =>
      rw [List.foldl_cons]
      have : mergeStep ((m, s), e) (Except.error u) = ((m, s), e + 1) := rfl
      rw [this, ih]
      have hflat : flatOk (Except.error u :: rest) = flatOk rest := by
        simp [flatOk]
      have hcnt : countErr (Except.error u :: rest) = countErr rest + 1 := by
        simp [countErr]
      rw [hflat, hcnt]
      congr 1
      omega
    | ok c =>
      rw [List.foldl_cons]
      have : mergeStep ((m, s), e) (Except.ok c) = (c.foldl stepItem (m, s), e) := rfl
      rw [this, foldl_stepItem_eq, ih]
      have hflat : flatOk (Except.ok c :: rest) = c ++ flatOk rest := by
        simp [flatOk]
      have hcnt : countErr (Except.ok c :: rest) = countErr rest := by
        simp [countErr]
      rw [hflat, hcnt, dedupEx_append]
      simp [List.append_assoc, idsOf, List.filterMap_append]

/-- The aggregation loop computes the first-seen-wins dedup of the
flattened successful responses, its id list, and the error count. -/
theorem mergeResponses_eq (rs : List Resp) :
    mergeResponses rs
      = ((dedupEx [] (flatOk rs), idsOf (dedupEx [] (flatOk rs))), countErr rs) := by
  have := mergeResponses_aux rs [] [] 0
  simpa [mergeResponses] using this

theorem dedupEx_find (l : List Item) :
    ∀ (seen : List String) (it : Item), it ∈ dedupEx seen l →
      ∃ i, it.id = some i ∧ i ≠ "" ∧ i ∉ seen
        ∧ l.find? (fun j => j.id == some i) = some it := by
  induction l with
  | nil => intro seen it h; simp [dedupEx] at h
  | cons hd t ih =>
    intro seen it h
    cases hid : hd.id with
    | none =>
      simp only [dedupEx, hid] at h
      obtain ⟨i, h1, h2, h3, h4⟩ := ih seen it h
      refine ⟨i, h1, h2, h3, ?_⟩
      rw [List.find?_cons_of_neg, h4]
      simp [hid]
    | some j =>
      by_cases hc : (j ≠ "" && !seen.contains j) = true
      · obtain ⟨hjne, hjmem⟩ : j ≠ "" ∧ j ∉ seen := by simpa using hc
        simp only [dedupEx, hid, if_pos hc, List.mem_cons] at h
        rcases h with h | h
        · subst h
          refine ⟨j, hid, hjne, hjmem, ?_⟩
          rw [List.find?_cons_of_pos]
          simp [hid]
        · obtain ⟨i, h1, h2, h3, h4⟩ := ih (seen ++ [j]) it h
          have hij : i ≠ j := fun hh => h3 (by simp [hh])
          refine ⟨i, h1, h2, fun hmem => h3 (by simp [hmem]), ?_⟩
          rw [List.find?_cons_of_neg, h4]
          simp only [hid, Option.some.injEq, beq_iff_eq]
          exact fun hh => hij hh.symm
      · have hdis : j = "" ∨ j ∈ seen := by
          by_contra hcon
          push_neg at hcon
          exact hc (by simp [hcon.1, hcon.2])
        simp only [dedupEx, hid] at h
        rw [if_neg hc] at h
        obtain ⟨i, h1, h2, h3, h4⟩ := ih seen it h
        have hij : j ≠ i := by
          rcases hdis with h0 | h0
          · subst h0
            exact fun hh => h2 hh.symm
          · intro hh
            subst hh
            exact h3 h0
        refine ⟨i, h1, h2, h3, ?_⟩
        rw [List.find?_cons_of_neg, h4]
        simp only [hid, Option.some.injEq, beq_iff_eq]
        exact hij

theorem dedupEx_ids_spec (l : List Item) :
    ∀ seen, (idsOf (dedupEx seen l)).Nodup
      ∧ ∀ i ∈ idsOf (dedupEx seen l), i ∉ seen := by
  induction l with
  | nil => intro seen; simp [dedupEx, idsOf]
  | cons it t ih =>
    intro seen
    cases hid : it.id with
    | none =>
      have hdd : dedupEx seen (it :: t) = dedupEx seen t := by
        simp [dedupEx, hid]
      rw [hdd]
      exact ih seen
    | some i =>
      by_cases hc : (i ≠ "" && !seen.contains i) = true
      · obtain ⟨hine, himem⟩ : i ≠ "" ∧ i ∉ seen := by simpa using hc
        have hdd : dedupEx seen (it :: t) = it :: dedupEx (seen ++ [i]) t := by
          simp only [dedupEx, hid]
          rw [if_pos hc]
        rw [hdd]
        have hids : idsOf (it :: dedupEx (seen ++ [i]) t)
            = i :: idsOf (dedupEx (seen ++ [i]) t) := by
          simp [idsOf, List.filterMap_cons, hid]
        rw [hids]
        obtain ⟨hnd, hmem⟩ := ih (seen ++ [i])
        constructor
        · refine List.nodup_cons.mpr ⟨?_, hnd⟩
          intro hcontra
          exact hmem i hcontra (by simp)
        · intro j hj
          rcases List.mem_cons.mp hj with hj | hj
          · subst hj; exact himem
          · intro hjs
            exact hmem j hj (by simp [hjs])
      · have hdd : dedupEx seen (it :: t) = dedupEx seen t := by
          simp only [dedupEx, hid]
          rw [if_neg hc]
        rw [hdd]
        exact ih seen

theorem dedupEx_mem_of_mem (l : List Item) :
    ∀ seen it, it ∈ dedupEx seen l → it ∈ l := by
  intro seen it h
  obtain ⟨i, _, _, _, h4⟩ := dedupEx_find l seen it h
  exact List.mem_of_find?_eq_some h4

theorem dedupEx_complete (l : List Item) :
    ∀ seen i, i ≠ "" → i ∉ seen →
      (∃ it ∈ l, it.id = some i) → ∃ it ∈ dedupEx seen l, it.id = some i := by
  induction l with
  | nil => intro seen i _ _ h; simp at h
  | cons hd t ih =>
    intro seen i hine himem h
    obtain ⟨w, hw, hwid⟩ := h
    cases hid : hd.id with
    | none =>
      have hdd : dedupEx seen (hd :: t) = dedupEx seen t := by
        simp [dedupEx, hid]
      rw [hdd]
      rcases List.mem_cons.mp hw with hw | hw
      · subst hw; rw [hid] at hwid; cases hwid
      · exact ih seen i hine himem ⟨w, hw, hwid⟩
    | some j =>
      by_cases hc : (j ≠ "" && !seen.contains j) = true
      · have hdd : dedupEx seen (hd :: t) = hd :: dedupEx (seen ++ [j]) t := by
          simp only [dedupEx, hid]
          rw [if_pos hc]
        rw [hdd]
        by_cases hij : i = j
        · exact ⟨hd, by simp, by rw [hid, hij]⟩
        · rcases List.mem_cons.mp hw with hw | hw
          · subst hw; rw [hid] at hwid
            cases hwid; exact absurd rfl hij
          · obtain ⟨it, h1, h2⟩ :=
              ih (seen ++ [j]) i hine (by simp [himem, hij]) ⟨w, hw, hwid⟩
            exact ⟨it, by simp [h1], h2⟩
      · have hdd : dedupEx seen (hd :: t) = dedupEx seen t := by
          simp only [dedupEx, hid]
          rw [if_neg hc]
        have hdis : j = "" ∨ j ∈ seen := by
          by_contra hcon
          push_neg at hcon
          exact hc (by simp [hcon.1, hcon.2])
        rw [hdd]
        rcases List.mem_cons.mp hw with hw | hw
        · subst hw; rw [hid] at hwid
          cases hwid
          rcases hdis with h0 | h0
          · exact absurd h0 hine
          · exact absurd h0 himem
        · exact ih seen i hine himem ⟨w, hw, hwid⟩

theorem flatOk_filter_ok (rs : List Resp) :
    flatOk (rs.filter isOkResp) = flatOk rs := by
  induction rs with
  | nil => rfl
  | cons r t ih =>
    cases r with
    | ok c => simp [flatOk, isOkResp, List.filter_cons] at ih ⊢; rw [ih]
    | error u => simpa [flatOk, isOkResp, List.filter_cons] using ih

/-- C5: the merged output of the aggregation loop over a sequence of
per-payload responses holds each truthy item id exactly once, keeps for
each id the first item carrying it in response iteration order, and a
failed response only increments the error count: the merged items are
those of the successful responses alone. -/
theorem aggregator_dedup_first_wins (rs : List Resp) :
    (idsOf (mergeResponses rs).1.1).Nodup
    ∧ (∀ it ∈ (mergeResponses rs).1.1,
        ∃ i, it.id = some i ∧ i ≠ ""
          ∧ (flatOk rs).find? (fun j => j.id == some i) = some it)
    ∧ (∀ i : String,
        (∃ it ∈ (mergeResponses rs).1.1, it.id = some i)
          ↔ (i ≠ "" ∧ ∃ it ∈ flatOk rs, it.id = some i))
    ∧ (mergeResponses rs).2 = countErr rs
    ∧ (mergeResponses rs).1.1 = (mergeResponses (rs.filter isOkResp)).1.1 := by
  rw [mergeResponses_eq, mergeResponses_eq]
  refine ⟨(dedupEx_ids_spec (flatOk rs) []).1, ?_, ?_, rfl, by rw [flatOk_filter_ok]⟩
  · intro it hit
    obtain ⟨i, h1, h2, _, h4⟩ := dedupEx_find (flatOk rs) [] it hit
    exact ⟨i, h1, h2, h4⟩
  · intro i
    constructor
    · rintro ⟨it, hit, hid⟩
      obtain ⟨j, h1, h2, _, h4⟩ := dedupEx_find (flatOk rs) [] it hit
      rw [hid] at h1
      cases h1
      exact ⟨h2, it, List.mem_of_find?_eq_some h4, hid⟩
    · rintro ⟨hine, it, hit, hid⟩
      exact dedupEx_complete (flatOk rs) [] i hine (by simp) ⟨it, hit, hid⟩

theorem insertByKeyDesc_perm (x : Item) (l : List Item) :
    (insertByKeyDesc x l).Perm (x :: l) := by
  induction l with
  | nil => exact List.Perm.refl _
  | cons y ys ih =>
    by_cases h : pubKey x ≤ pubKey y
    · have : insertByKeyDesc x (y :: ys) = y :: insertByKeyDesc x ys := by
        simp [insertByKeyDesc, h]
      rw [this]
      exact (ih.cons y).trans (List.Perm.swap x y ys)
    · have : insertByKeyDesc x (y :: ys) = x :: y :: ys := by
        simp [insertByKeyDesc, h]
      rw [this]

theorem insertByKeyDesc_mem {z x : Item} {l : List Item}
    (h : z ∈ insertByKeyDesc x l) : z = x ∨ z ∈ l :=
  List.mem_cons.mp ((insertByKeyDesc_perm x l).mem_iff.mp h)

theorem insertByKeyDesc_sorted (x : Item) (l : List Item)
    (h : l.Pairwise fun a b => pubKey b ≤ pubKey a) :
    (insertByKeyDesc x l).Pairwise fun a b => pubKey b ≤ pubKey a := by
  induction l with
  | nil => simp [insertByKeyDesc]
  | cons y ys ih =>
    obtain ⟨hy, hys⟩ := List.pairwise_cons.mp h
    by_cases hle : pubKey x ≤ pubKey y
    · have heq : insertByKeyDesc x (y :: ys) = y :: insertByKeyDesc x ys := by
        simp [insertByKeyDesc, hle]
      rw [heq]
      refine List.pairwise_cons.mpr ⟨?_, ih hys⟩
      intro z hz
      rcases insertByKeyDesc_mem hz with hz | hz
      · subst hz; exact hle
      · exact hy z hz
    · have heq : insertByKeyDesc x (y :: ys) = x :: y :: ys := by
        simp [insertByKeyDesc, hle]
      rw [heq]
      have hyx : pubKey y ≤ pubKey x := le_of_not_le hle
      refine List.pairwise_cons.mpr ⟨?_, h⟩
      intro z hz
      rcases List.mem_cons.mp hz with hz | hz
      · subst hz; exact hyx
      · exact le_trans (hy z hz) hyx

theorem sortDesc_foldl_perm (l : List Item) :
    ∀ acc, (l.foldl (fun a x => insertByKeyDesc x a) acc).Perm (acc ++ l) := by
  induction l with
  | nil => intro acc; simp
  | cons x t ih =>
    intro acc
    rw [List.foldl_cons]
    refine (ih (insertByKeyDesc x acc)).trans ?_
    refine (List.Perm.append_right t (insertByKeyDesc_perm x acc)).trans ?_
    rw [List.cons_append]
    exact List.perm_middle.symm

theorem sortDesc_foldl_sorted (l : List Item) :
    ∀ acc, (acc.Pairwise fun a b => pubKey b ≤ pubKey a) →
      ((l.foldl (fun a x => insertByKeyDesc x a) acc).Pairwise
        fun a b => pubKey b ≤ pubKey a) := by
  induction l with
  | nil => intro acc h; simpa using h
  | cons x t ih =>
    intro acc h
    rw [List.foldl_cons]
    exact ih _ (insertByKeyDesc_sorted x acc h)

theorem empty_string_le (s : String) : "" ≤ s :=
  String.le_iff_toList_le.mpr List.nil_le

/-- C6: the sort of the aggregation step permutes the merged list into
descending lexical order of the raw publication string, the empty
string standing in for an absent value, so that every item after an
item with the empty key also has the empty key (absent-dated items sort
last). -/
theorem aggregator_sort_desc (l : List Item) :
    (sortDesc l).Perm l
    ∧ ((sortDesc l).Pairwise fun a b => pubKey b ≤ pubKey a)
    ∧ ((sortDesc l).Pairwise fun a b => pubKey a = "" → pubKey b = "") := by
  have hperm : (sortDesc l).Perm l := by
    have := sortDesc_foldl_perm l []
    simpa [sortDesc] using this
  have hsorted := sortDesc_foldl_sorted l [] (by simp)
  rw [show (l.foldl (fun a x => insertByKeyDesc x a) [] : List Item) = sortDesc l from rfl]
    at hsorted
  refine ⟨hperm, hsorted, ?_⟩
  refine hsorted.imp ?_
  intro a b hab ha
  rw [ha] at hab
  exact le_antisymm hab (empty_string_le _)

/-- C7: the diff of the seen-set tracker keeps exactly the merged items
whose id is not in the seen set, in merged order (a sublist of the
input). -/
theorem diff_correct (seen : List String) (items : List Item) :
    (∀ it, it ∈ diffSeen seen items ↔ it ∈ items ∧ seenMem seen it.id = false)
    ∧ (diffSeen seen items).Sublist items := by
  constructor
  · intro it
    constructor
    · intro h
      obtain ⟨h1, h2⟩ := List.mem_filter.mp h
      exact ⟨h1, by simpa using h2⟩
    · rintro ⟨h1, h2⟩
      exact List.mem_filter.mpr ⟨h1, by simp [h2]⟩
  · exact List.filter_sublist items

theorem mem_dedupFirstAux (l : List String) :
    ∀ seen x, x ∈ dedupFirstAux seen l ↔ x ∈ l ∧ x ∉ seen := by
  induction l with
  | nil => intro seen x; simp [dedupFirstAux]
  | cons a t ih =>
    intro seen x
    by_cases hc : seen.contains a = true
    · have ha : a ∈ seen := by simpa using hc
      have hdd : dedupFirstAux seen (a :: t) = dedupFirstAux seen t := by
        simp only [dedupFirstAux]
        rw [if_pos hc]
      rw [hdd, ih]
      constructor
      · rintro ⟨h1, h2⟩; exact ⟨List.mem_cons_of_mem a h1, h2⟩
      · rintro ⟨h1, h2⟩
        rcases List.mem_cons.mp h1 with h1 | h1
        · subst h1; exact absurd ha h2
        · exact ⟨h1, h2⟩
    · have ha : a ∉ seen := by simpa using hc
      have hdd : dedupFirstAux seen (a :: t) = a :: dedupFirstAux (seen ++ [a]) t := by
        simp only [dedupFirstAux]
        rw [if_neg hc]
      rw [hdd]
      constructor
      · intro h
        rcases List.mem_cons.mp h with h | h
        · subst h; exact ⟨List.mem_cons_self _ _, ha⟩
        · obtain ⟨h1, h2⟩ := (ih (seen ++ [a]) x).mp h
          exact ⟨List.mem_cons_of_mem a h1, fun hs => h2 (by simp [hs])⟩
      · rintro ⟨h1, h2⟩
        rcases List.mem_cons.mp h1 with h1 | h1
        · subst h1; exact List.mem_cons_self _ _
        · by_cases hxa : x = a
          · subst hxa; exact List.mem_cons_self _ _
          · exact List.mem_cons_of_mem a
              ((ih (seen ++ [a]) x).mpr ⟨h1, by simp [h2, hxa]⟩)

theorem nodup_dedupFirstAux (l : List String) :
    ∀ seen, (dedupFirstAux seen l).Nodup := by
  induction l with
  | nil => intro seen; simp [dedupFirstAux]
  | cons a t ih =>
    intro seen
    by_cases hc : seen.contains a = true
    · have hdd : dedupFirstAux seen (a :: t) = dedupFirstAux seen t := by
        simp only [dedupFirstAux]
        rw [if_pos hc]
      rw [hdd]; exact ih seen
    · have hdd : dedupFirstAux seen (a :: t) = a :: dedupFirstAux (seen ++ [a]) t := by
        simp only [dedupFirstAux]
        rw [if_neg hc]
      rw [hdd]
      refine List.nodup_cons.mpr ⟨?_, ih (seen ++ [a])⟩
      intro hmem
      exact ((mem_dedupFirstAux t (seen ++ [a]) a).mp hmem).2 (by simp)

theorem dedupFirstAux_append (l₁ l₂ : List String) :
    ∀ seen, dedupFirstAux seen (l₁ ++ l₂)
      = dedupFirstAux seen l₁
        ++ dedupFirstAux (seen ++ dedupFirstAux seen l₁) l₂ := by
  induction l₁ with
  | nil => intro seen; simp [dedupFirstAux]
  | cons a t ih =>
    intro seen
    by_cases hc : seen.contains a = true
    · have h1 : dedupFirstAux seen (a :: (t ++ l₂)) = dedupFirstAux seen (t ++ l₂) := by
        simp only [dedupFirstAux]
        rw [if_pos hc]
      have h2 : dedupFirstAux seen (a :: t) = dedupFirstAux seen t := by
        simp only [dedupFirstAux]
        rw [if_pos hc]
      rw [List.cons_append, h1, h2, ih]
    · have h1 : dedupFirstAux seen (a :: (t ++ l₂))
          = a :: dedupFirstAux (seen ++ [a]) (t ++ l₂) := by
        simp only [dedupFirstAux]
        rw [if_neg hc]
      have h2 : dedupFirstAux seen (a :: t) = a :: dedupFirstAux (seen ++ [a]) t := by
        simp only [dedupFirstAux]
        rw [if_neg hc]
      rw [List.cons_append, h1, h2, ih (seen ++ [a])]
      simp [List.append_assoc]

theorem dedupFirstAux_eq_self (l : List String) :
    ∀ seen, (∀ x ∈ l, x ∉ seen) → l.Nodup → dedupFirstAux seen l = l := by
  induction l with
  | nil => intro seen _ _; rfl
  | cons a t ih =>
    intro seen hout hnd
    have hc : seen.contains a ≠ true := fun hcc =>
      hout a (List.mem_cons_self a t) (List.elem_iff.mp hcc)
    have hdd : dedupFirstAux seen (a :: t) = a :: dedupFirstAux (seen ++ [a]) t := by
      simp only [dedupFirstAux]
      rw [if_neg hc]
    rw [hdd]
    obtain ⟨hna, hndt⟩ := List.nodup_cons.mp hnd
    congr 1
    refine ih (seen ++ [a]) ?_ hndt
    intro x hx
    have hxa : x ≠ a := fun hh => hna (hh ▸ hx)
    simp [hout x (List.mem_cons_of_mem a hx), hxa]

theorem dedupFirstAux_nil_of_subset (l : List String) :
    ∀ seen, (∀ x ∈ l, x ∈ seen) → dedupFirstAux seen l = [] := by
  induction l with
  | nil => intro seen _; rfl
  | cons a t ih =>
    intro seen hsub
    have hc : seen.contains a = true := by
      simpa using hsub a (List.mem_cons_self a t)
    have hdd : dedupFirstAux seen (a :: t) = dedupFirstAux seen t := by
      simp only [dedupFirstAux]
      rw [if_pos hc]
    rw [hdd]
    exact ih seen fun x hx => hsub x (List.mem_cons_of_mem a hx)

theorem commitSeen_idem (prev ids : List String) :
    commitSeen (commitSeen prev ids) ids = commitSeen prev ids := by
  set D := commitSeen prev ids with hD
  have hnd : D.Nodup := nodup_dedupFirstAux (prev ++ ids) []
  have hself : dedupFirstAux [] D = D :=
    dedupFirstAux_eq_self D [] (by simp) hnd
  have hsub : ∀ x ∈ ids, x ∈ D := by
    intro x hx
    rw [hD]
    exact (mem_dedupFirstAux (prev ++ ids) [] x).mpr ⟨by simp [hx], by simp⟩
  calc commitSeen D ids
      = dedupFirstAux [] (D ++ ids) := rfl
    _ = dedupFirstAux [] D ++ dedupFirstAux ([] ++ dedupFirstAux [] D) ids :=
        dedupFirstAux_append D ids []
    _ = D ++ dedupFirstAux D ids := by rw [hself, List.nil_append]
    _ = D ++ [] := by rw [dedupFirstAux_nil_of_subset ids D hsub]
    _ = D := List.append_nil D

theorem mem_commitSeen (prev ids : List String) (x : String) :
    x ∈ commitSeen prev ids ↔ x ∈ prev ∨ x ∈ ids := by
  rw [commitSeen, dedupFirst, mem_dedupFirstAux]
  simp

theorem expander_count_witness :
    (iter_payloads sampleSearch).length
      = sampleSearch.categorie.length * max sampleSearch.regioni.length 1
          * max sampleSearch.settori.length 1
    ∧ (build_payloads_from_search sampleSearch).length
      = sampleSearch.categorie.length * max sampleSearch.regioni.length 1
          * max sampleSearch.settori.length 1 :=
  expander_count sampleSearch rfl

theorem runOps_append_ok {l₁ : List StOp} :
    ∀ {db d₁ : DB}, runOps db l₁ = (d₁, true) →
      ∀ l₂, runOps db (l₁ ++ l₂) = runOps d₁ l₂ := by
  induction l₁ with
  | nil =>
    intro db d₁ h l₂
    simp only [runOps] at h
    cases h
    rfl
  | cons op rest ih =>
    intro db d₁ h l₂
    simp only [runOps] at h ⊢
    cases hop : applyOp db op with
    | ok db' =>
      rw [hop] at h
      simp only [List.cons_append, runOps, hop]
      exact ih h l₂
    | error u =>
      rw [hop] at h
      cases h

theorem runOps_fix {ops : List StOp} {d : DB}
    (h : ∀ op ∈ ops, applyOp d op = .ok d) : runOps d ops = (d, true) := by
  induction ops with
  | nil => rfl
  | cons op rest ih =>
    simp only [runOps, h op (by simp)]
    exact ih fun o ho => h o (by simp [ho])

theorem runOps_preserves (P : DB → Prop) :
    ∀ (ops : List StOp) (db : DB),
      (∀ op ∈ ops, ∀ d d', P d → applyOp d op = .ok d' → P d') →
      P db → P (runOps db ops).1 := by
  intro ops
  induction ops with
  | nil => intro db _ hdb; exact hdb
  | cons op rest ih =>
    intro db hpres hdb
    simp only [runOps]
    cases hop : applyOp db op with
    | ok db' =>
      exact ih db' (fun o ho => hpres o (by simp [ho]))
        (hpres op (by simp) db db' hdb hop)
    | error u => exact hdb

theorem insSeen_post (ids : List String) (sid : String) :
    ∀ {db d₁ : DB},
      runOps db (ids.map (StOp.insertSeenIgnore sid)) = (d₁, true) →
      d₁.users = db.users ∧ d₁.searches = db.searches
        ∧ d₁.legacy_seen = db.legacy_seen
        ∧ (∀ p ∈ db.seen_items, p ∈ d₁.seen_items)
        ∧ (∀ iid ∈ ids, (sid, iid) ∈ d₁.seen_items) := by
  induction ids with
  | nil =>
    intro db d₁ h
    simp only [List.map_nil, runOps] at h
    cases h
    exact ⟨rfl, rfl, rfl, fun p hp => hp, by simp⟩
  | cons iid rest ih =>
    intro db d₁ h
    simp only [List.map_cons, runOps] at h
    by_cases hhs : hasSearch db sid = true
    · have h' : runOps
          { db with seen_items :=
              if db.seen_items.contains (sid, iid) = true then db.seen_items
              else db.seen_items ++ [(sid, iid)] }
          (rest.map (StOp.insertSeenIgnore sid)) = (d₁, true) := by
        simpa only [applyOp, if_pos hhs] using h
      obtain ⟨hu, hs, hl, hsub, hall⟩ := ih h'
      refine ⟨by simpa using hu, by simpa using hs, by simpa using hl, ?_, ?_⟩
      · intro p hp
        refine hsub p ?_
        show p ∈ (if db.seen_items.contains (sid, iid) = true then db.seen_items
          else db.seen_items ++ [(sid, iid)])
        by_cases hcon : db.seen_items.contains (sid, iid) = true
        · rw [if_pos hcon]; exact hp
        · rw [if_neg hcon]; exact List.mem_append_left _ hp
      · intro j hj
        rcases List.mem_cons.mp hj with hj | hj
        · subst hj
          refine hsub _ ?_
          show (sid, j) ∈ (if db.seen_items.contains (sid, j) = true then db.seen_items
            else db.seen_items ++ [(sid, j)])
          by_cases hcon : db.seen_items.contains (sid, j) = true
          · rw [if_pos hcon]; exact List.elem_iff.mp hcon
          · rw [if_neg hcon]; exact List.mem_append_right _ (by simp)
        · exact hall j hj
    · simp only [applyOp, if_neg hhs] at h
      cases h

theorem insLegacy_post (ids : List String) (chat : String) :
    ∀ {db d₁ : DB},
      runOps db (ids.map (StOp.insertLegacySeenIgnore chat)) = (d₁, true) →
      d₁.users = db.users ∧ d₁.searches = db.searches
        ∧ d₁.seen_items = db.seen_items
        ∧ (∀ p ∈ db.legacy_seen, p ∈ d₁.legacy_seen)
        ∧ (∀ iid ∈ ids, (chat, iid) ∈ d₁.legacy_seen) := by
  induction ids with
  | nil =>
    intro db d₁ h
    simp only [List.map_nil, runOps] at h
    cases h
    exact ⟨rfl, rfl, rfl, fun p hp => hp, by simp⟩
  | cons iid rest ih =>
    intro db d₁ h
    simp only [List.map_cons, runOps] at h
    by_cases hhs : db.users.contains chat = true
    · have h' : runOps
          { db with legacy_seen :=
              if db.legacy_seen.contains (chat, iid) = true then db.legacy_seen
              else db.legacy_seen ++ [(chat, iid)] }
          (rest.map (StOp.insertLegacySeenIgnore chat)) = (d₁, true) := by
        simpa only [applyOp, if_pos hhs] using h
      obtain ⟨hu, hs, hl, hsub, hall⟩ := ih h'
      refine ⟨by simpa using hu, by simpa using hs, by simpa using hl, ?_, ?_⟩
      · intro p hp
        refine hsub p ?_
        show p ∈ (if db.legacy_seen.contains (chat, iid) = true then db.legacy_seen
          else db.legacy_seen ++ [(chat, iid)])
        by_cases hcon : db.legacy_seen.contains (chat, iid) = true
        · rw [if_pos hcon]; exact hp
        · rw [if_neg hcon]; exact List.mem_append_left _ hp
      · intro j hj
        rcases List.mem_cons.mp hj with hj | hj
        · subst hj
          refine hsub _ ?_
          show (chat, j) ∈ (if db.legacy_seen.contains (chat, j) = true then db.legacy_seen
            else db.legacy_seen ++ [(chat, j)])
          by_cases hcon : db.legacy_seen.contains (chat, j) = true
          · rw [if_pos hcon]; exact List.elem_iff.mp hcon
          · rw [if_neg hcon]; exact List.mem_append_right _ (by simp)
        · exact hall j hj
    · simp only [applyOp, if_neg hhs] at h
      cases h

theorem runOps_cons_ok {db d : DB} {op : StOp} {rest : List StOp}
    (h : runOps db (op :: rest) = (d, true)) :
    ∃ db', applyOp db op = .ok db' ∧ runOps db' rest = (d, true) := by
  simp only [runOps] at h
  cases hop : applyOp db op with
  | ok db' =>
    rw [hop] at h
    exact ⟨db', rfl, h⟩
  | error u =>
    rw [hop] at h
    cases h

theorem append_idem_aux_seen (ids : List String) (sid chat : String)
    {db d₁ : DB} (hne : ids ≠ [])
    (h : runOps db (ids.map (StOp.insertSeenIgnore sid)) = (d₁, true))
    (hchat : db.users.contains chat = true) :
    applyOp d₁ (StOp.ensureUser chat) = .ok d₁
      ∧ runOps d₁ (ids.map (StOp.insertSeenIgnore sid)) = (d₁, true) := by
  obtain ⟨hu, hs, _, _, hall⟩ := insSeen_post ids sid h
  have hchat₁ : d₁.users.contains chat = true := by rw [hu]; exact hchat
  have hhs : hasSearch db sid = true := by
    cases ids with
    | nil => exact absurd rfl hne
    | cons i0 rest =>
      obtain ⟨db', hop, _⟩ := runOps_cons_ok (by simpa using h)
      simp only [applyOp] at hop
      by_cases hx : hasSearch db sid = true
      · exact hx
      · rw [if_neg hx] at hop; cases hop
  have hhs₁ : hasSearch d₁ sid = true := by
    simp only [hasSearch] at hhs ⊢
    rw [hs]
    exact hhs
  have hchatm : chat ∈ d₁.users := List.elem_iff.mp hchat₁
  constructor
  · simp [applyOp, hchatm]
  · refine runOps_fix ?_
    intro op hop
    obtain ⟨iid, hiid, rfl⟩ := List.mem_map.mp hop
    simp [applyOp, hhs₁, hall iid hiid]

theorem append_idem_aux_legacy (ids : List String) (chat : String)
    {db d₁ : DB}
    (h : runOps db (ids.map (StOp.insertLegacySeenIgnore chat)) = (d₁, true))
    (hchat : db.users.contains chat = true) :
    applyOp d₁ (StOp.ensureUser chat) = .ok d₁
      ∧ runOps d₁ (ids.map (StOp.insertLegacySeenIgnore chat)) = (d₁, true) := by
  obtain ⟨hu, _, _, _, hall⟩ := insLegacy_post ids chat h
  have hchat₁ : d₁.users.contains chat = true := by rw [hu]; exact hchat
  have hchatm : chat ∈ d₁.users := List.elem_iff.mp hchat₁
  constructor
  · simp [applyOp, hchatm]
  · refine runOps_fix ?_
    intro op hop
    obtain ⟨iid, hiid, rfl⟩ := List.mem_map.mp hop
    simp [applyOp, hchatm, hall iid hiid]

theorem ensured_contains (db : DB) (chat : String) :
    (if db.users.contains chat = true then db.users
      else db.users ++ [chat]).contains chat = true := by
  by_cases hc : db.users.contains chat = true
  · rw [if_pos hc]; exact hc
  · rw [if_neg hc]
    exact List.elem_iff.mpr (List.mem_append_right _ (by simp))

/-- C8: committing the same new ids twice yields the same seen state as
committing once: the in-memory commit of the poll loop (order-keeping
dedup of the extended list) is idempotent, and a second
`State.append_seen` with the same ids after a successful one is a
complete no-op on the store. -/
theorem commit_idempotent (prev ids : List String) (db : DB)
    (chat : String) (sido : Option String)
    (h : (append_seen db chat ids sido).2 = true) :
    commitSeen (commitSeen prev ids) ids = commitSeen prev ids
    ∧ append_seen (append_seen db chat ids sido).1 chat ids sido
        = ((append_seen db chat ids sido).1, true) := by
  refine ⟨commitSeen_idem prev ids, ?_⟩
  by_cases hids : ids.isEmpty = true
  · simp [append_seen, hids]
  · have hne : ids ≠ [] := by
      intro hnil
      rw [hnil] at hids
      exact hids rfl
    set dbE : DB :=
      { db with users := if db.users.contains chat = true then db.users
          else db.users ++ [chat] } with hdbE
    have hchatE : dbE.users.contains chat = true := ensured_contains db chat
    have hfirst : ∀ tail : List StOp,
        runOps db (StOp.ensureUser chat :: tail) = runOps dbE tail := by
      intro tail
      simp only [runOps, applyOp]
    cases sido with
    | none =>
      simp only [append_seen, if_neg hids] at h ⊢
      rw [hfirst] at h ⊢
      have hrun : runOps dbE (ids.map (StOp.insertLegacySeenIgnore chat))
          = ((runOps dbE (ids.map (StOp.insertLegacySeenIgnore chat))).1, true) := by
        rw [Prod.ext_iff]
        exact ⟨rfl, h⟩
      obtain ⟨hens, hsecond⟩ := append_idem_aux_legacy ids chat hrun hchatE
      simp only [runOps, hens]
      exact hsecond
    | some sid =>
      by_cases hsid : sid ≠ ""
      · simp only [append_seen, if_neg hids, if_pos hsid] at h ⊢
        rw [hfirst] at h ⊢
        have hrun : runOps dbE (ids.map (StOp.insertSeenIgnore sid))
            = ((runOps dbE (ids.map (StOp.insertSeenIgnore sid))).1, true) := by
          rw [Prod.ext_iff]
          exact ⟨rfl, h⟩
        obtain ⟨hens, hsecond⟩ := append_idem_aux_seen ids sid chat hne hrun hchatE
        simp only [runOps, hens]
        exact hsecond
      · simp only [append_seen, if_neg hids, if_neg hsid] at h ⊢
        rw [hfirst] at h ⊢
        have hrun : runOps dbE (ids.map (StOp.insertLegacySeenIgnore chat))
            = ((runOps dbE (ids.map (StOp.insertLegacySeenIgnore chat))).1, true) := by
          rw [Prod.ext_iff]
          exact ⟨rfl, h⟩
        obtain ⟨hens, hsecond⟩ := append_idem_aux_legacy ids chat hrun hchatE
        simp only [runOps, hens]
        exact hsecond

theorem commit_idempotent_witness :
    commitSeen (commitSeen ["A"] ["A", "B"]) ["A", "B"] = commitSeen ["A"] ["A", "B"]
    ∧ append_seen (append_seen dbSample "c" ["A", "B"] (some "s1")).1
        "c" ["A", "B"] (some "s1")
        = ((append_seen dbSample "c" ["A", "B"] (some "s1")).1, true) :=
  commit_idempotent ["A"] ["A", "B"] dbSample "c" (some "s1") (by decide)

theorem hasSearch_map_upsert (db : DB) (sid t : String) (lb : Option String)
    (h : hasSearch db sid = true) :
    hasSearch { db with searches := db.searches.map fun r =>
      if r.id == sid then { r with text := t, label := lb } else r } sid = true := by
  simp only [hasSearch, List.any_eq_true] at h ⊢
  obtain ⟨r, hr, hreq⟩ := h
  refine ⟨(fun r => if r.id == sid then { r with text := t, label := lb } else r) r,
    List.mem_map_of_mem _ hr, ?_⟩
  by_cases hcase : (r.id == sid) = true
  · simp only [if_pos hcase]
    exact hcase
  · simp only [if_neg hcase]
    exact hreq

theorem insertFilters_ok (sid : String) (k : FKind) (fs : List Filt) :
    ∀ db : DB, hasSearch db sid = true →
      ∃ d', runOps db (filterOps sid k fs) = (d', true)
        ∧ d'.searches = db.searches ∧ d'.users = db.users := by
  induction fs with
  | nil => intro db _; exact ⟨db, rfl, rfl, rfl⟩
  | cons f t ih =>
    intro db hdb
    have hstep : applyOp db (StOp.insertFilter sid k f.id f.name)
        = .ok { db with search_filters := db.search_filters ++ [⟨sid, k, f.id, f.name⟩] } := by
      simp [applyOp, hdb]
    obtain ⟨d', h1, h2, h3⟩ := ih
      { db with search_filters := db.search_filters ++ [⟨sid, k, f.id, f.name⟩] } hdb
    refine ⟨d', ?_, h2, h3⟩
    simp only [filterOps, List.map_cons, runOps, hstep]
    exact h1

theorem searchOps_ok (chat : String) (s : SearchCfg) :
    ∀ db : DB, (∃ i, s.id = some i) → chat ∈ db.users →
      ∃ d', runOps db (searchOps chat s) = (d', true) ∧ d'.users = db.users := by
  intro db hid hchat
  obtain ⟨i, hi⟩ := hid
  have hcont : db.users.contains chat = true := List.elem_iff.mpr hchat
  obtain ⟨db₁, hup, hu₁, hhs₁⟩ :
      ∃ db₁, applyOp db (StOp.upsertSearch i chat s.text s.label) = .ok db₁
        ∧ db₁.users = db.users ∧ hasSearch db₁ i = true := by
    by_cases hhs : hasSearch db i = true
    · refine ⟨{ db with searches := db.searches.map fun r =>
          if r.id == i then { r with text := s.text, label := s.label } else r },
        ?_, rfl, hasSearch_map_upsert db i s.text s.label hhs⟩
      simp only [applyOp]
      rw [if_pos hhs]
    · refine ⟨{ db with searches := db.searches ++ [⟨i, chat, s.text, s.label⟩] },
        ?_, rfl, ?_⟩
      · simp only [applyOp]
        rw [if_neg hhs, if_pos hcont]
      · simp [hasSearch, List.any_append]
  have hdel : applyOp db₁ (StOp.deleteFilters i)
      = .ok { db₁ with search_filters :=
          db₁.search_filters.filter fun f => f.search_id ≠ i } := rfl
  have hhs₂ : hasSearch
      { db₁ with search_filters :=
        db₁.search_filters.filter fun f => f.search_id ≠ i } i = true := hhs₁
  obtain ⟨d₃, h3, hs3, hu3⟩ := insertFilters_ok i FKind.category s.categorie _ hhs₂
  have hhs₃ : hasSearch d₃ i = true := by
    simp only [hasSearch] at hhs₂ ⊢
    rw [hs3]
    exact hhs₂
  obtain ⟨d₄, h4, hs4, hu4⟩ := insertFilters_ok i FKind.region s.regioni d₃ hhs₃
  have hhs₄ : hasSearch d₄ i = true := by
    simp only [hasSearch] at hhs₃ ⊢
    rw [hs4]
    exact hhs₃
  obtain ⟨d₅, h5, hs5, hu5⟩ := insertFilters_ok i FKind.sector s.settori d₄ hhs₄
  refine ⟨d₅, ?_, by rw [hu5, hu4, hu3, hu₁]⟩
  simp only [searchOps, hi, runOps, hup, hdel]
  rw [List.append_assoc, runOps_append_ok h3, runOps_append_ok h4]
  exact h5

theorem searchesOps_ok (chat : String) (ss : List SearchCfg) :
    ∀ db : DB, (∀ s ∈ ss, ∃ i, s.id = some i) → chat ∈ db.users →
      ∃ d', runOps db (ss.flatMap (searchOps chat)) = (d', true)
        ∧ d'.users = db.users := by
  induction ss with
  | nil => intro db _ _; exact ⟨db, rfl, rfl⟩
  | cons s t ih =>
    intro db hids hchat
    obtain ⟨d₁, h1, hu1⟩ := searchOps_ok chat s db (hids s (by simp)) hchat
    obtain ⟨d₂, h2, hu2⟩ := ih d₁ (fun x hx => hids x (by simp [hx]))
      (by rw [hu1]; exact hchat)
    refine ⟨d₂, ?_, by rw [hu2, hu1]⟩
    rw [List.flatMap_cons, runOps_append_ok h1]
    exact h2

theorem delCascade_noRef (db : DB) (sid : String) : noRef (delCascade db sid) sid := by
  refine ⟨?_, ?_, ?_⟩ <;> intro x hx <;>
    simpa using (List.mem_filter.mp hx).2

theorem noRef_delCascade_pres (d : DB) (sid y : String) (h : noRef d sid) :
    noRef (delCascade d y) sid := by
  obtain ⟨h1, h2, h3⟩ := h
  exact ⟨fun r hr => h1 r (List.mem_filter.mp hr).1,
    fun f hf => h2 f (List.mem_filter.mp hf).1,
    fun p hp => h3 p (List.mem_filter.mp hp).1⟩

theorem deletes_total (t : List String) (sid : String) :
    ∀ db : DB, ∃ d', runOps db (t.map StOp.deleteSearchCascade) = (d', true)
      ∧ (noRef db sid → noRef d' sid) := by
  induction t with
  | nil => intro db; exact ⟨db, rfl, id⟩
  | cons y t ih =>
    intro db
    obtain ⟨d', h1, h2⟩ := ih (delCascade db y)
    refine ⟨d', ?_, fun h => h2 (noRef_delCascade_pres db sid y h)⟩
    simp only [List.map_cons, runOps, applyOp]
    exact h1

theorem deletes_ok (dels : List String) (sid : String) :
    ∀ db : DB, sid ∈ dels →
      ∃ d', runOps db (dels.map StOp.deleteSearchCascade) = (d', true)
        ∧ noRef d' sid := by
  induction dels with
  | nil => intro db h; cases h
  | cons y t ih =>
    intro db hmem
    rcases List.mem_cons.mp hmem with hy | hy
    · subst hy
      obtain ⟨d', h1, h2⟩ := deletes_total t sid (delCascade db sid)
      refine ⟨d', ?_, h2 (delCascade_noRef db sid)⟩
      simp only [List.map_cons, runOps, applyOp]
      exact h1
    · obtain ⟨d', h1, h2⟩ := ih (delCascade db y) hy
      refine ⟨d', ?_, h2⟩
      simp only [List.map_cons, runOps, applyOp]
      exact h1

theorem noRef_pres_seen_insert (sid sid' iid : String) (d d' : DB)
    (h : noRef d sid) (hap : applyOp d (StOp.insertSeenIgnore sid' iid) = .ok d') :
    noRef d' sid := by
  simp only [applyOp] at hap
  by_cases hhs : hasSearch d sid' = true
  · rw [if_pos hhs] at hap
    cases hap
    have hne : sid' ≠ sid := by
      simp only [hasSearch, List.any_eq_true] at hhs
      obtain ⟨r, hr, hreq⟩ := hhs
      have hrid : r.id = sid' := by simpa using hreq
      exact hrid ▸ h.1 r hr
    obtain ⟨h1, h2, h3⟩ := h
    refine ⟨h1, h2, ?_⟩
    intro p hp
    by_cases hcon : d.seen_items.contains (sid', iid) = true
    · rw [if_pos hcon] at hp
      exact h3 p hp
    · rw [if_neg hcon] at hp
      rcases List.mem_append.mp hp with hp | hp
      · exact h3 p hp
      · rw [List.mem_singleton.mp hp]
        exact hne
  · rw [if_neg hhs] at hap
    cases hap

theorem noRef_pres_legacy_insert (sid c iid : String) (d d' : DB)
    (h : noRef d sid) (hap : applyOp d (StOp.insertLegacySeenIgnore c iid) = .ok d') :
    noRef d' sid := by
  simp only [applyOp] at hap
  by_cases hc : d.users.contains c = true
  · rw [if_pos hc] at hap
    cases hap
    exact h
  · rw [if_neg hc] at hap
    cases hap

/-- C9: a `set_user` whose incoming searches list omits a stored search
removes the search row, all of its filter rows and all of its seen
rows; whatever else the call does (including a mid-call foreign-key
error on a stale seen-map entry), no row referencing the removed id
remains. -/
theorem set_user_cascades (db : DB) (chat sid : String) (u : UserU)
    (hstored : ∃ r ∈ db.searches, r.id = sid ∧ r.chat_id = chat)
    (homit : ∀ s ∈ u.searches, ∃ i, s.id = some i ∧ i ≠ sid) :
    noRef (set_user db chat u).1 sid := by
  obtain ⟨r, hr, hrid, hrchat⟩ := hstored
  have hsid_exist : sid ∈ (db.searches.filter fun rr => rr.chat_id == chat).map
      SearchRow.id := by
    refine List.mem_map.mpr ⟨r, ?_, hrid⟩
    refine List.mem_filter.mpr ⟨hr, ?_⟩
    simp [hrchat]
  have hsid_notin : ¬ (u.searches.filterMap SearchCfg.id).contains sid = true := by
    intro hcon
    obtain ⟨s, hs, hsid⟩ := List.mem_filterMap.mp (List.elem_iff.mp hcon)
    obtain ⟨i, hi, hine⟩ := homit s hs
    rw [hi] at hsid
    exact hine (Option.some.injEq _ _ ▸ hsid)
  have hsid_dels : sid ∈ ((db.searches.filter fun rr => rr.chat_id == chat).map
      SearchRow.id).filter fun x => !(u.searches.filterMap SearchCfg.id).contains x := by
    refine List.mem_filter.mpr ⟨hsid_exist, ?_⟩
    simp
    intro x hx
    obtain ⟨i, hi, hine⟩ := homit x hx
    rw [hi]
    intro hh
    injection hh with hh2
    exact hine hh2
  have hchatE : chat ∈ (if db.users.contains chat = true then db.users
      else db.users ++ [chat]) :=
    List.elem_iff.mp (ensured_contains db chat)
  obtain ⟨dA, hA, hAu⟩ := searchesOps_ok chat u.searches
    { db with users := if db.users.contains chat = true then db.users
        else db.users ++ [chat] }
    (fun s hs => (homit s hs).imp fun i hh => hh.1) hchatE
  obtain ⟨dB, hB, hBnoref⟩ := deletes_ok _ sid dA hsid_dels
  have hfinal : noRef (runOps dB
      ((u.seen_ids_map.flatMap fun kv => kv.2.map (StOp.insertSeenIgnore kv.1))
        ++ u.seen_ids.map (StOp.insertLegacySeenIgnore chat))).1 sid := by
    refine runOps_preserves (noRef · sid) _ dB ?_ hBnoref
    intro op hop d d' hd hap
    rcases List.mem_append.mp hop with hop | hop
    · obtain ⟨kv, _, hkv⟩ := List.mem_flatMap.mp hop
      obtain ⟨iid, _, rfl⟩ := List.mem_map.mp hkv
      exact noRef_pres_seen_insert sid kv.1 iid d d' hd hap
    · obtain ⟨iid, _, rfl⟩ := List.mem_map.mp hop
      exact noRef_pres_legacy_insert sid chat iid d d' hd hap
  have hchain : set_user db chat u = runOps dB
      ((u.seen_ids_map.flatMap fun kv => kv.2.map (StOp.insertSeenIgnore kv.1))
        ++ u.seen_ids.map (StOp.insertLegacySeenIgnore chat)) := by
    show runOps db (set_userOps db chat u) = _
    simp only [set_userOps, runOps, applyOp]
    rw [List.append_assoc, List.append_assoc, runOps_append_ok hA,
      runOps_append_ok hB]
  rw [hchain]
  exact hfinal

/-- C1: a legacy single-search user and a user with the one equivalent
SavedSearch detect and notify the same item in a poll cycle, but the
legacy branch of `run_once` discards the updated seen list without
calling set_user, so nothing is persisted for the legacy user: a second
cycle with the same catalog results re-notifies the same item for the
legacy user while the SavedSearch user correctly reports zero; the
message headers also differ between the two modes. -/
theorem legacy_seen_not_persisted :
    ((runOnceJson catA usersL).2.1.map notifItem = [some itemA])
    ∧ ((runOnceJson catA usersM).2.1.map notifItem = [some itemA])
    ∧ ((runOnceJson catA usersL).1 = usersL)
    ∧ ((runOnceJson catA (runOnceJson catA usersL).1).2.1.map notifItem = [some itemA])
    ∧ ((runOnceJson catA (runOnceJson catA usersM).1).2.1 = [])
    ∧ ((runOnceJson catA usersM).1
        = [("M", (⟨[cfgM1], none, [("s1", ["A"])], []⟩ : UserU))])
    ∧ ((runOnceJson catA usersL).2.1.map notifHeader
        ≠ (runOnceJson catA usersM).2.1.map notifHeader) := by decide

/-- C3: `run_once` has no exception handler around per-user
processing, so a set_user exception while committing the first user
(sqlite can raise on any statement, for example on lock contention)
aborts the cycle: the second user receives no notification, although
with a store that does not raise both users are notified. -/
theorem user_exception_stops_cycle :
    ((runOnceAux catA failSetUser usersC3 usersC3).2.1.map notifChat = ["u1"])
    ∧ ((runOnceAux catA failSetUser usersC3 usersC3).2.2 = true)
    ∧ ((runOnceJson catA usersC3).2.1.map notifChat = ["u1", "u2"])
    ∧ ((runOnceJson catA usersC3).2.2 = false) := by decide

/-- C2: `set_user` runs on an autocommit connection with no
transaction, so each statement is durable on its own.  On a store
holding search s1 with one filter row, re-saving the same search
reaches, after its third statement (the DELETE FROM search_filters),
a visible committed state in which s1 still exists but has zero filter
rows, although both the initial and the final state carry the filter
row: the update is not all-or-nothing. -/
theorem set_user_not_atomic :
    (set_user dbSample "c" uC2 = (dbSample, true))
    ∧ ((runOps dbSample ((set_userOps dbSample "c" uC2).take 3)).2 = true)
    ∧ ((runOps dbSample ((set_userOps dbSample "c" uC2).take 3)).1.searches
        = dbSample.searches)
    ∧ ((runOps dbSample ((set_userOps dbSample "c" uC2).take 3)).1.search_filters = [])
    ∧ (dbSample.search_filters ≠ []) := by decide

theorem merged_truthy (rs : List Resp) :
    ∀ it ∈ (mergeResponses rs).1.1, truthyId it.id = true := by
  intro it hit
  rw [mergeResponses_eq] at hit
  obtain ⟨i, h1, h2, _, _⟩ := dedupEx_find (flatOk rs) [] it hit
  simp [truthyId, h1, h2]

theorem sortDesc_perm (l : List Item) : (sortDesc l).Perm l := by
  have := sortDesc_foldl_perm l []
  simpa [sortDesc] using this

theorem lookup_upsertAssoc (m : List (String × List String)) (k : String)
    (v : List String) :
    ∀ k', lookupAssoc (upsertAssoc m k v) k'
      = if k' = k then some v else lookupAssoc m k' := by
  induction m with
  | nil =>
    intro k'
    simp only [upsertAssoc, lookupAssoc]
    by_cases h : k = k'
    · subst h; simp
    · rw [if_neg h, if_neg (fun hh => h hh.symm)]
  | cons kv rest ih =>
    intro k'
    obtain ⟨k0, v0⟩ := kv
    simp only [upsertAssoc]
    by_cases h0 : k0 = k
    · subst h0
      rw [if_pos rfl]
      simp only [lookupAssoc]
      by_cases h1 : k0 = k'
      · subst h1
        rw [if_pos rfl, if_pos rfl]
      · rw [if_neg h1, if_neg (fun hh => h1 hh.symm), if_neg h1]
    · rw [if_neg h0]
      simp only [lookupAssoc]
      by_cases h1 : k0 = k'
      · subst h1
        have hk : ¬ k0 = k := h0
        rw [if_pos rfl, if_neg (fun hh : k0 = k => h0 hh), if_pos rfl]
      · rw [if_neg h1, if_neg h1, ih k']

theorem pos_notif_truthy (cat : Catalog) (chat : String) (u : UserU)
    (cfg : SearchCfg) (lid : String) :
    ∀ n ∈ (processOneSearch cat chat u cfg lid).2.1, notifTruthy n := by
  intro n hn
  simp only [processOneSearch] at hn
  repeat' split at hn
  all_goals first
    | (simp at hn; done)
    | (simp at hn; subst hn; trivial)
    | { simp only [List.mem_map] at hn
        obtain ⟨it, hit, rfl⟩ := hn
        show truthyId it.id = true
        have h1 : it ∈ sortDesc (mergeResponses ((iter_payloads cfg).map cat)).1.1 :=
          (List.mem_filter.mp hit).1
        have h2 := (sortDesc_perm _).mem_iff.mp h1
        exact merged_truthy _ it h2 }

theorem pos_seen_ids (cat : Catalog) (chat : String) (u : UserU)
    (cfg : SearchCfg) (lid : String) :
    ∀ x ∈ (processOneSearch cat chat u cfg lid).1.seen_ids,
      x ∈ u.seen_ids ∨ x ≠ "" := by
  intro x hx
  simp only [processOneSearch] at hx
  repeat' split at hx
  all_goals first
    | exact Or.inl hx
    | { rcases (mem_commitSeen _ _ _).mp hx with h | h
        · exact Or.inl h
        · obtain ⟨it, hit, hid⟩ := List.mem_filterMap.mp h
          have h1 : it ∈ sortDesc (mergeResponses ((iter_payloads cfg).map cat)).1.1 :=
            (List.mem_filter.mp hit).1
          have h2 := (sortDesc_perm _).mem_iff.mp h1
          have h3 := merged_truthy _ it h2
          rw [hid] at h3
          right
          simpa [truthyId] using h3 }

theorem pos_seen_map (cat : Catalog) (chat : String) (u : UserU)
    (cfg : SearchCfg) (lid : String) :
    ∀ sid x,
      x ∈ (lookupAssoc (processOneSearch cat chat u cfg lid).1.seen_ids_map sid).getD []
        → x ∈ (lookupAssoc u.seen_ids_map sid).getD [] ∨ x ≠ "" := by
  intro sid x hx
  simp only [processOneSearch] at hx
  repeat' split at hx
  all_goals first
    | exact Or.inl hx
    | { replace hx : x ∈ (lookupAssoc (upsertAssoc u.seen_ids_map lid
          (commitSeen ((lookupAssoc u.seen_ids_map lid).getD [])
            (List.filterMap Item.id
              (diffSeen ((lookupAssoc u.seen_ids_map lid).getD [])
                (sortDesc (mergeResponses ((iter_payloads cfg).map cat)).1.1)))))
            sid).getD [] := hx
        rw [lookup_upsertAssoc] at hx
        by_cases hsid : sid = lid
        · rw [if_pos hsid] at hx
          simp only [Option.getD_some] at hx
          rcases (mem_commitSeen _ _ _).mp hx with h | h
          · rw [hsid]
            exact Or.inl h
          · obtain ⟨it, hit, hid⟩ := List.mem_filterMap.mp h
            have h1 : it ∈ sortDesc (mergeResponses ((iter_payloads cfg).map cat)).1.1 :=
              (List.mem_filter.mp hit).1
            have h2 := (sortDesc_perm _).mem_iff.mp h1
            have h3 := merged_truthy _ it h2
            rw [hid] at h3
            right
            simpa [truthyId] using h3
        · rw [if_neg hsid] at hx
          exact Or.inl hx }

theorem set_user_cascades_witness :
    noRef (set_user dbTwoSearches "c" uKeepS2).1 "s1" :=
  set_user_cascades dbTwoSearches "c" "s1" uKeepS2
    (by decide) (by decide)

/-- C10: an item whose id is absent, None or empty is silently dropped
by the poll pipeline: it never enters the merged output, every item
notification carries a truthy id, and every id newly committed to the
legacy seen list or to any entry of the per-search seen map is
non-empty. -/
theorem falsy_ids_dropped (rs : List Resp) (cat : Catalog) (chat : String)
    (u : UserU) (cfg : SearchCfg) (lid : String) :
    (∀ it ∈ (mergeResponses rs).1.1, truthyId it.id = true)
    ∧ (∀ n ∈ (processOneSearch cat chat u cfg lid).2.1, notifTruthy n)
    ∧ (∀ x ∈ (processOneSearch cat chat u cfg lid).1.seen_ids,
        x ∈ u.seen_ids ∨ x ≠ "")
    ∧ (∀ sid x,
        x ∈ (lookupAssoc (processOneSearch cat chat u cfg lid).1.seen_ids_map sid).getD []
          → x ∈ (lookupAssoc u.seen_ids_map sid).getD [] ∨ x ≠ "") :=
  ⟨merged_truthy rs, pos_notif_truthy cat chat u cfg lid,
    pos_seen_ids cat chat u cfg lid, pos_seen_map cat chat u cfg lid⟩

end Inpa
